import Mathlib

/-!
Shallow embedding of the PHOENIX grid-interpolation core of
`src/chromatic/spectra/phoenix.py` (class `PHOENIXLibrary`):
the bounds finder `_find_bounds`, the weight calculator
`_get_interpolation_weights`, the resolution selector `_find_smallest_R`,
and the query entry point `get_spectrum`.

Floating-point numbers are modelled by an arbitrary linear ordered field
(instantiated at `ℚ` for executable witnesses and at `ℝ` where the code
applies `np.log`).  The grid's `models` dictionary is modelled as an
association list from key triples to flux lists.  Python exceptions are
modelled with `Except`.
-/

namespace Phoenix

variable {α : Type*} [LinearOrderedField α]

/-- The three indexing axes of the grid, in the order of
`_keys_for_indexing = ["temperature", "logg", "metallicity"]`. -/
inductive AxisKey : Type
  | temperature
  | logg
  | metallicity
deriving DecidableEq, Repr

/-- Result of `_find_bounds`: either the one-element list `[value]` returned
on an exact match, or the `(below, above)` pair returned otherwise. -/
inductive Bound (α : Type*) : Type _
  | exact (value : α)
  | pair (below above : α)
deriving DecidableEq, Repr

/-- The list of grid values carried by a bound (what the Python code
iterates over: `[value]` or `(below, above)`). -/
def Bound.values : Bound α → List α
  | .exact v => [v]
  | .pair b a => [b, a]

/-- `np.size` of the bound as returned by `_find_bounds`. -/
def Bound.size : Bound α → Nat
  | .exact _ => 1
  | .pair _ _ => 2

/-- Element `[0]` of the bound, as used to build the exact-match key in
`get_spectrum`. -/
def Bound.first : Bound α → α
  | .exact v => v
  | .pair b _ => b

/-- The data carried by the `ValueError` raised by `_find_bounds` when the
query lies outside the axis range: the axis name (`key`), the full query
triple (`inputs`, interpolated into the message as `repr(inputs)`), and the
axis minimum and maximum (`np.min(possible)`, `np.max(possible)`). -/
structure OutOfBoundsError (α : Type*) : Type _ where
  key : AxisKey
  inputs : α × α × α
  lo : Option α
  hi : Option α
deriving DecidableEq, Repr

/-- Minimum of a list, `none` on the empty list (`np.min` of an empty
selection raises, which the Python code catches and turns into `None`). -/
def lmin : List α → Option α
  | [] => none
  | x :: xs =>
    match lmin xs with
    | none => some x
    | some y => some (min x y)

/-- Maximum of a list, `none` on the empty list. -/
def lmax : List α → Option α
  | [] => none
  | x :: xs =>
    match lmax xs with
    | none => some x
    | some y => some (max x y)

/-- Embedding of `PHOENIXLibrary._find_bounds(value, key, inputs)`, with the
axis array `possible = self.metadata[key]` passed explicitly.  Returns
`[value]` if `value in possible`; otherwise `above` is the minimum of the
elements strictly greater than `value` and `below` the maximum of the
elements `<= value`, and if either is missing a `ValueError` carrying the
axis name, the inputs and the axis min/max is raised. -/
def find_bounds (value : α) (key : AxisKey) (inputs : α × α × α)
    (possible : List α) : Except (OutOfBoundsError α) (Bound α) :=
  if value ∈ possible then
    .ok (.exact value)
  else
    match lmin (possible.filter (fun x => decide (value < x))),
          lmax (possible.filter (fun x => decide (x ≤ value))) with
    | some above, some below => .ok (.pair below above)
    | _, _ =>
      .error { key := key, inputs := inputs,
               lo := lmin possible, hi := lmax possible }

/-- Embedding of `PHOENIXLibrary._get_interpolation_weights(value, bounds)`:
weight `[1]` for a single bound value, and the pair
`((bounds[1]-value)/span, (value-bounds[0])/span)` with
`span = bounds[1]-bounds[0]` for a two-element bound.  (For any other size
the Python function falls through returning `None`; that case is modelled
by `[]` and never arises from `_find_bounds`.) -/
def get_interpolation_weights (value : α) : List α → List α
  | [_b] => [1]
  | [b0, b1] => [(b1 - value) / (b1 - b0), (value - b0) / (b1 - b0)]
  | _ => []

/-- The in-memory grid loaded by `_load_grid`: the shared wavelength array,
the sorted unique axis values stored in the metadata under the three axis
keys, and the `models` dictionary mapping key triples to flux arrays,
modelled as an association list. -/
structure Grid (α : Type*) : Type _ where
  wavelength : List α
  temperature : List α
  logg : List α
  metallicity : List α
  models : List ((α × α × α) × List α)

/-- Dictionary lookup `self.models[key]`, `none` standing for `KeyError`. -/
def lookup (models : List ((α × α × α) × List α)) (k : α × α × α) :
    Option (List α) :=
  match models with
  | [] => none
  | (k', s) :: rest => if k' = k then some s else lookup rest k

/-- The triple loop of `get_spectrum` that forms, in order, one
`(combined weight, key)` entry per combination of bound values:
`weights[i] = wt * wg * wz` and `key = (t, g, z)`.  The temperature weights
are computed from the log-transformed query and bounds
(`np.log(temperature)`, `np.log(bounding_temperature)`), while the logg and
metallicity weights use the native values. -/
def spectrumWeights (lg : α → α) (temperature logg metallicity : α)
    (bT bG bZ : Bound α) : List (α × (α × α × α)) :=
  ((get_interpolation_weights (lg temperature) (bT.values.map lg)).zip
      bT.values).flatMap fun wt =>
    ((get_interpolation_weights logg bG.values).zip bG.values).flatMap fun wg =>
      ((get_interpolation_weights metallicity bZ.values).zip
          bZ.values).map fun wz =>
        (wt.1 * wg.1 * wz.1, (wt.2, wg.2, wz.2))

/-- Look up every constructed key in order, failing with the first key that
is absent from `models` (the `KeyError` raised inside the loop). -/
def lookupAll (models : List ((α × α × α) × List α)) :
    List (α × α × α) → Except (α × α × α) (List (List α))
  | [] => .ok []
  | k :: rest =>
    match lookup models k with
    | none => .error k
    | some s =>
      match lookupAll models rest with
      | .error k' => .error k'
      | .ok tl => .ok (s :: tl)

/-- `np.isclose(a, b)` with the numpy defaults `atol = 1e-8`,
`rtol = 1e-5`: `|a - b| <= atol + rtol * |b|`. -/
def np_isclose (a b : α) : Bool :=
  decide (|a - b| ≤ 1 / 100000000 + 1 / 100000 * |b|)

/-- The weight-sum assertion of `get_spectrum`:
`assert np.isclose(weight_sum, 1) or (weight_sum <= 1)`. -/
def weightSumCheck (s : α) : Bool :=
  np_isclose s 1 || decide (s ≤ 1)

/-- `weights /= weight_sum`: every combined weight divided by the sum. -/
def normalizedWeights (ws : List α) : List α :=
  ws.map fun w => w / ws.sum

/-- `np.sum(weights[:, np.newaxis] * spectra, axis=0)`: the elementwise
weighted sum of the spectra (all of length `n`, the wavelength count). -/
def combine (pairs : List (α × List α)) (n : Nat) : List α :=
  pairs.foldr (fun ws acc => List.zipWith (· + ·) (ws.2.map (ws.1 * ·)) acc)
    (List.replicate n 0)

/-- The ways a `get_spectrum` call can raise. -/
inductive SpectrumError (α : Type*) : Type _
  | outOfBounds (e : OutOfBoundsError α)
  | keyNotFound (k : α × α × α)
  | assertionFailed (weightSum : α)
deriving DecidableEq, Repr

/-- Embedding of `PHOENIXLibrary.get_spectrum(temperature, logg,
metallicity)` (visualization aside).  `lg` is the log function applied to
the temperature axis (`np.log`; instantiated at `Real.log` over `ℝ`).
Bounds are found per axis; if the product of their sizes is 1 the single
spectrum is looked up by the exact key and returned as is, paired with the
grid wavelength; otherwise per-axis weights are formed (temperature in log
space), the up-to-8 combination spectra are looked up, the weight sum is
checked by the assertion, the weights are divided by their sum and the
weighted spectra are accumulated. -/
def get_spectrum (lg : α → α) (grid : Grid α)
    (temperature logg metallicity : α) :
    Except (SpectrumError α) (List α × List α) :=
  let inputs := (temperature, logg, metallicity)
  match find_bounds temperature .temperature inputs grid.temperature with
  | .error e => .error (.outOfBounds e)
  | .ok bT =>
    match find_bounds logg .logg inputs grid.logg with
    | .error e => .error (.outOfBounds e)
    | .ok bG =>
      match find_bounds metallicity .metallicity inputs grid.metallicity with
      | .error e => .error (.outOfBounds e)
      | .ok bZ =>
        if bT.size * bG.size * bZ.size = 1 then
          let key := (bT.first, bG.first, bZ.first)
          match lookup grid.models key with
          | none => .error (.keyNotFound key)
          | some s => .ok (grid.wavelength, s)
        else
          let combos := spectrumWeights lg temperature logg metallicity bT bG bZ
          match lookupAll grid.models (combos.map Prod.snd) with
          | .error k => .error (.keyNotFound k)
          | .ok spectra =>
            let weights := combos.map Prod.fst
            if weightSumCheck weights.sum then
              .ok (grid.wavelength,
                combine (List.zipWith Prod.mk (normalizedWeights weights) spectra)
                  grid.wavelength.length)
            else
              .error (.assertionFailed weights.sum)

/-- The grid invariant recorded by `_create_grid`: the metadata axis arrays
are the unique values of the model keys, so every key component of every
stored model appears in its axis array. -/
def Grid.WellFormed (grid : Grid α) : Prop :=
  ∀ e ∈ grid.models, e.1.1 ∈ grid.temperature ∧ e.1.2.1 ∈ grid.logg ∧
    e.1.2.2 ∈ grid.metallicity

/-- The `IndexError` raised by `np.flatnonzero(...)[0]` when no available
resolution is at least the requested one. -/
inductive LookupFailure : Type
  | indexOutOfRange
deriving DecidableEq, Repr

/-- Embedding of `PHOENIXLibrary._find_smallest_R(R)`:
`i = np.flatnonzero(np.array(available) >= R)[0]` picks the first index
whose resolution is `>= R` and the function returns `available[i]`; on an
empty index array the indexing `[0]` itself raises `IndexError`.  (The
`else` branch of the source, which would warn and fall back to the maximum
available resolution, is unreachable: `i` is never `None`.) -/
def find_smallest_R (available : List α) (R : α) : Except LookupFailure α :=
  match (available.filter (fun x => decide (R ≤ x))).head? with
  | some r => .ok r
  | none => .error .indexOutOfRange

/-- `PHOENIXLibrary._available_resolutions`. -/
def available_resolutions : List ℚ :=
  [3, 10, 30, 100, 300, 1000, 3000, 10000, 30000, 100000]

/-- Decidable equality of `Except` values, for evaluating the embedding on
concrete rational inputs. -/
instance {ε β : Type*} [DecidableEq ε] [DecidableEq β] :
    DecidableEq (Except ε β) := fun a b =>
  match a, b with
  | .error e, .error f => decidable_of_iff (e = f) (by simp)
  | .error _, .ok _ => isFalse (by simp)
  | .ok _, .error _ => isFalse (by simp)
  | .ok a, .ok b => decidable_of_iff (a = b) (by simp)

/-! ### Lemmas about `lmin` and `lmax` -/

theorem lmin_eq_none_iff {l : List α} : lmin l = none ↔ l = [] := by
  cases l with
  | nil => simp [lmin]
  | cons x xs => cases h : lmin xs <;> simp [lmin, h]

theorem lmin_exists {l : List α} (h : l ≠ []) : ∃ m, lmin l = some m := by
  cases hm : lmin l with
  | none => exact absurd (lmin_eq_none_iff.mp hm) h
  | some m => exact ⟨m, rfl⟩

theorem lmin_mem {l : List α} {m : α} (h : lmin l = some m) : m ∈ l := by
  induction l with
  | nil => simp [lmin] at h
  | cons x xs ih =>
    rw [lmin] at h
    cases hx : lmin xs with
    | none => rw [hx] at h; simp at h; simp [h]
    | some y =>
      rw [hx] at h
      simp at h
      rcases min_choice x y with hc | hc
      · rw [hc] at h; simp [h]
      · rw [hc] at h; subst h; exact List.mem_cons_of_mem _ (ih hx)

theorem lmin_le {l : List α} {m : α} (h : lmin l = some m) :
    ∀ x ∈ l, m ≤ x := by
  induction l generalizing m with
  | nil => simp [lmin] at h
  | cons x xs ih =>
    rw [lmin] at h
    cases hx : lmin xs with
    | none =>
      rw [hx] at h
      simp at h
      have hnil : xs = [] := lmin_eq_none_iff.mp hx
      subst hnil
      intro z hz
      rw [List.mem_singleton] at hz
      subst hz
      exact h.ge
    | some y =>
      rw [hx] at h
      simp at h
      intro z hz
      rcases List.mem_cons.mp hz with hz | hz
      · rw [hz, ← h]; exact min_le_left _ _
      · exact le_trans (le_trans h.ge (min_le_right x y)) (ih hx z hz)

theorem lmax_eq_none_iff {l : List α} : lmax l = none ↔ l = [] := by
  cases l with
  | nil => simp [lmax]
  | cons x xs => cases h : lmax xs <;> simp [lmax, h]

theorem lmax_exists {l : List α} (h : l ≠ []) : ∃ m, lmax l = some m := by
  cases hm : lmax l with
  | none => exact absurd (lmax_eq_none_iff.mp hm) h
  | some m => exact ⟨m, rfl⟩

theorem lmax_mem {l : List α} {m : α} (h : lmax l = some m) : m ∈ l := by
  induction l with
  | nil => simp [lmax] at h
  | cons x xs ih =>
    rw [lmax] at h
    cases hx : lmax xs with
    | none => rw [hx] at h; simp at h; simp [h]
    | some y =>
      rw [hx] at h
      simp at h
      rcases max_choice x y with hc | hc
      · rw [hc] at h; simp [h]
      · rw [hc] at h; subst h; exact List.mem_cons_of_mem _ (ih hx)

theorem lmax_ge {l : List α} {m : α} (h : lmax l = some m) :
    ∀ x ∈ l, x ≤ m := by
  induction l generalizing m with
  | nil => simp [lmax] at h
  | cons x xs ih =>
    rw [lmax] at h
    cases hx : lmax xs with
    | none =>
      rw [hx] at h
      simp at h
      have hnil : xs = [] := lmax_eq_none_iff.mp hx
      subst hnil
      intro z hz
      rw [List.mem_singleton] at hz
      subst hz
      exact h.le
    | some y =>
      rw [hx] at h
      simp at h
      intro z hz
      rcases List.mem_cons.mp hz with hz | hz
      · rw [hz, ← h]; exact le_max_left _ _
      · exact le_trans (ih hx z hz) (le_trans (le_max_right x y) h.le)

/-! ### Lemmas about `find_bounds` -/

theorem find_bounds_exact {value : α} (key : AxisKey) (inputs : α × α × α)
    {possible : List α} (h : value ∈ possible) :
    find_bounds value key inputs possible = .ok (.exact value) := by
  unfold find_bounds
  rw [if_pos h]

theorem find_bounds_pair_spec {value : α} {key : AxisKey}
    {inputs : α × α × α} {possible : List α} {b a : α}
    (h : find_bounds value key inputs possible = .ok (.pair b a)) :
    value ∉ possible ∧
      (b ∈ possible ∧ b ≤ value ∧ ∀ x ∈ possible, x ≤ value → x ≤ b) ∧
      (a ∈ possible ∧ value < a ∧ ∀ x ∈ possible, value < x → a ≤ x) := by
  unfold find_bounds at h
  by_cases hmem : value ∈ possible
  · rw [if_pos hmem] at h
    simp at h
  · rw [if_neg hmem] at h
    split at h
    next a' b' hA hB =>
      simp at h
      obtain ⟨hb, ha⟩ := h
      subst hb
      subst ha
      refine ⟨hmem, ⟨?_, ?_, ?_⟩, ⟨?_, ?_, ?_⟩⟩
      · have hm := lmax_mem hB
        rw [List.mem_filter] at hm
        exact hm.1
      · have hm := lmax_mem hB
        rw [List.mem_filter] at hm
        exact of_decide_eq_true hm.2
      · intro x hx hxle
        exact lmax_ge hB x (List.mem_filter.mpr ⟨hx, decide_eq_true hxle⟩)
      · have hm := lmin_mem hA
        rw [List.mem_filter] at hm
        exact hm.1
      · have hm := lmin_mem hA
        rw [List.mem_filter] at hm
        exact of_decide_eq_true hm.2
      · intro x hx hxlt
        exact lmin_le hA x (List.mem_filter.mpr ⟨hx, decide_eq_true hxlt⟩)
    next hno =>
      simp at h

theorem find_bounds_pair_exists {value : α} (key : AxisKey)
    (inputs : α × α × α) {possible : List α} (hmem : value ∉ possible)
    (hbelow : ∃ x ∈ possible, x ≤ value)
    (habove : ∃ x ∈ possible, value < x) :
    ∃ b a, find_bounds value key inputs possible = .ok (.pair b a) := by
  unfold find_bounds
  rw [if_neg hmem]
  obtain ⟨xb, hxb, hxble⟩ := hbelow
  obtain ⟨xa, hxa, hxalt⟩ := habove
  have hfa : (possible.filter fun x => decide (value < x)) ≠ [] := by
    intro hnil
    have hin : xa ∈ possible.filter fun x => decide (value < x) :=
      List.mem_filter.mpr ⟨hxa, decide_eq_true hxalt⟩
    rw [hnil] at hin
    simp at hin
  have hfb : (possible.filter fun x => decide (x ≤ value)) ≠ [] := by
    intro hnil
    have hin : xb ∈ possible.filter fun x => decide (x ≤ value) :=
      List.mem_filter.mpr ⟨hxb, decide_eq_true hxble⟩
    rw [hnil] at hin
    simp at hin
  obtain ⟨a', hA⟩ := lmin_exists hfa
  obtain ⟨b', hB⟩ := lmax_exists hfb
  rw [hA, hB]
  exact ⟨b', a', rfl⟩

theorem find_bounds_ok_exact_eq {value w : α} {key : AxisKey}
    {inputs : α × α × α} {possible : List α}
    (h : find_bounds value key inputs possible = .ok (.exact w)) :
    w = value ∧ value ∈ possible := by
  unfold find_bounds at h
  by_cases hmem : value ∈ possible
  · rw [if_pos hmem] at h
    simp at h
    exact ⟨h.symm, hmem⟩
  · rw [if_neg hmem] at h
    split at h
    next a' b' hA hB => simp at h
    next hno => simp at h

/-! ### Lemmas about the interpolation weights -/

theorem giw_pair_sum {v b0 b1 : α} (h : b0 ≠ b1) :
    (get_interpolation_weights v [b0, b1]).sum = 1 := by
  have hs : b1 - b0 ≠ 0 := sub_ne_zero.mpr (Ne.symm h)
  simp [get_interpolation_weights]
  rw [div_add_div_same, show b1 - v + (v - b0) = b1 - b0 by ring]
  exact div_self hs

theorem spectrumWeights_sum (lg : α → α) (t g z : α) (bT bG bZ : Bound α) :
    ((spectrumWeights lg t g z bT bG bZ).map Prod.fst).sum =
      (get_interpolation_weights (lg t) (bT.values.map lg)).sum *
        (get_interpolation_weights g bG.values).sum *
        (get_interpolation_weights z bZ.values).sum := by
  cases bT <;> cases bG <;> cases bZ <;>
    simp [spectrumWeights, Bound.values, get_interpolation_weights] <;> ring

theorem bound_weights_sum_native {v : α} {bnd : Bound α}
    (h : ∀ b a, bnd = .pair b a → b ≠ a) :
    (get_interpolation_weights v bnd.values).sum = 1 := by
  cases bnd with
  | exact x => simp [Bound.values, get_interpolation_weights]
  | pair b a => exact giw_pair_sum (h b a rfl)

theorem bound_weights_sum_log {v : α} (lg : α → α) {bnd : Bound α}
    (h : ∀ b a, bnd = .pair b a → lg b ≠ lg a) :
    (get_interpolation_weights v (bnd.values.map lg)).sum = 1 := by
  cases bnd with
  | exact x => simp [Bound.values, get_interpolation_weights]
  | pair b a => simpa [Bound.values] using giw_pair_sum (v := v) (h b a rfl)

theorem spectrumWeights_sum_one (lg : α → α) (t g z : α) {bT bG bZ : Bound α}
    (hT : ∀ b a, bT = .pair b a → lg b ≠ lg a)
    (hG : ∀ b a, bG = .pair b a → b ≠ a)
    (hZ : ∀ b a, bZ = .pair b a → b ≠ a) :
    ((spectrumWeights lg t g z bT bG bZ).map Prod.fst).sum = 1 := by
  rw [spectrumWeights_sum, bound_weights_sum_log lg hT,
    bound_weights_sum_native hG, bound_weights_sum_native hZ]
  ring

/-- A pair bound on the temperature axis of a positive-temperature grid has
distinct logarithms: its endpoints are grid values with `below < above`. -/
theorem log_ne_of_temperature_pair {t g z : ℝ} {temps : List ℝ}
    {bT : Bound ℝ} (hpos : ∀ x ∈ temps, 0 < x)
    (hT : find_bounds t .temperature (t, g, z) temps = .ok bT) :
    ∀ b a, bT = .pair b a → Real.log b ≠ Real.log a := by
  intro b a hba
  subst hba
  obtain ⟨-, ⟨hbmem, hble, -⟩, ⟨-, hlt, -⟩⟩ := find_bounds_pair_spec hT
  exact ne_of_lt (Real.log_lt_log (hpos b hbmem) (lt_of_le_of_lt hble hlt))

/-! ### Lemmas about lookups and the weight sum under valid bounds -/

theorem lookup_some_mem {models : List ((α × α × α) × List α)}
    {k : α × α × α} {s : List α} (h : lookup models k = some s) :
    (k, s) ∈ models := by
  induction models with
  | nil => simp [lookup] at h
  | cons e rest ih =>
    obtain ⟨k', s'⟩ := e
    rw [lookup] at h
    by_cases hk : k' = k
    · rw [if_pos hk] at h
      simp at h
      rw [hk, h]
      exact List.mem_cons_self _ _
    · rw [if_neg hk] at h
      exact List.mem_cons_of_mem _ (ih h)

theorem lookupAll_error_of_missing {models : List ((α × α × α) × List α)}
    {keys : List (α × α × α)}
    (h : ∃ k ∈ keys, lookup models k = none) :
    ∃ k, lookup models k = none ∧ lookupAll models keys = .error k := by
  induction keys with
  | nil => simp at h
  | cons k rest ih =>
    cases hk : lookup models k with
    | none =>
      refine ⟨k, hk, ?_⟩
      rw [lookupAll, hk]
    | some s =>
      have hrest : ∃ k' ∈ rest, lookup models k' = none := by
        obtain ⟨k', hk', hnone⟩ := h
        rcases List.mem_cons.mp hk' with hkk | hmem
        · rw [hkk, hk] at hnone
          exact absurd hnone (by simp)
        · exact ⟨k', hmem, hnone⟩
      obtain ⟨k', hnone, herr⟩ := ih hrest
      refine ⟨k', hnone, ?_⟩
      rw [lookupAll, hk, herr]

/-- Under the bounds actually returned by `_find_bounds` on a
positive-temperature grid, the combined weights of the interpolation
branch sum to exactly `1` in real arithmetic. -/
theorem sum_one_of_bounds (grid : Grid ℝ) (t g z : ℝ) {bT bG bZ : Bound ℝ}
    (hpos : ∀ x ∈ grid.temperature, 0 < x)
    (hT : find_bounds t .temperature (t, g, z) grid.temperature = .ok bT)
    (hG : find_bounds g .logg (t, g, z) grid.logg = .ok bG)
    (hZ : find_bounds z .metallicity (t, g, z) grid.metallicity = .ok bZ) :
    ((spectrumWeights Real.log t g z bT bG bZ).map Prod.fst).sum = 1 := by
  refine spectrumWeights_sum_one Real.log t g z
    (log_ne_of_temperature_pair hpos hT) ?_ ?_
  · intro b a hba
    subst hba
    obtain ⟨-, ⟨-, hble, -⟩, ⟨-, hlt, -⟩⟩ := find_bounds_pair_spec hG
    exact ne_of_lt (lt_of_le_of_lt hble hlt)
  · intro b a hba
    subst hba
    obtain ⟨-, ⟨-, hble, -⟩, ⟨-, hlt, -⟩⟩ := find_bounds_pair_spec hZ
    exact ne_of_lt (lt_of_le_of_lt hble hlt)

/-- Concrete evaluation of `_find_bounds` over `ℝ` for the witnesses: the
query temperature `3250` on the axis `[3000, 3500]`. -/
theorem find_bounds_T_concrete :
    find_bounds (3250 : ℝ) .temperature (3250, 5, 0) [3000, 3500] =
      .ok (.pair 3000 3500) := by
  unfold find_bounds
  rw [if_neg (by norm_num)]
  rw [show ([3000, 3500].filter fun x => decide ((3250 : ℝ) < x)) = [3500] by
    norm_num [List.filter]]
  rw [show ([3000, 3500].filter fun x => decide (x ≤ (3250 : ℝ))) = [3000] by
    norm_num [List.filter]]
  rfl

/-- Concrete evaluation of `_find_bounds` over `ℝ`: exact logg match. -/
theorem find_bounds_g_concrete :
    find_bounds (5 : ℝ) .logg (3250, 5, 0) [5] = .ok (.exact 5) :=
  find_bounds_exact _ _ (by simp)

/-- Concrete evaluation of `_find_bounds` over `ℝ`: exact metallicity
match. -/
theorem find_bounds_z_concrete :
    find_bounds (0 : ℝ) .metallicity (3250, 5, 0) [0] = .ok (.exact 0) :=
  find_bounds_exact _ _ (by simp)

/-! ### Claim theorems -/

/-- C2: for a query value present exactly in the axis values, `find_bounds`
returns the degenerate exact bound (the exact-match branch always wins);
otherwise, when an element `≤ value` and an element `> value` both exist,
it returns the pair `(below, above)` where `below` is the maximum axis
element `≤ value` and `above` the minimum axis element strictly greater
than `value`, so `below ≤ value ≤ above`. -/
theorem find_bounds_spec (value : α) (key : AxisKey) (inputs : α × α × α)
    (possible : List α) :
    (value ∈ possible →
      find_bounds value key inputs possible = .ok (.exact value)) ∧
    (value ∉ possible →
      (∃ x ∈ possible, x ≤ value) → (∃ x ∈ possible, value < x) →
      ∃ b a, find_bounds value key inputs possible = .ok (.pair b a) ∧
        (b ∈ possible ∧ b ≤ value ∧ ∀ x ∈ possible, x ≤ value → x ≤ b) ∧
        (a ∈ possible ∧ value < a ∧ ∀ x ∈ possible, value < x → a ≤ x) ∧
        b ≤ value ∧ value ≤ a) := by
  constructor
  · exact fun h => find_bounds_exact key inputs h
  · intro hmem hbelow habove
    obtain ⟨b, a, hok⟩ := find_bounds_pair_exists key inputs hmem hbelow habove
    obtain ⟨-, hb, ha⟩ := find_bounds_pair_spec hok
    exact ⟨b, a, hok, hb, ha, hb.2.1, le_of_lt ha.2.1⟩

/-- Witness for C2: the exact branch at `6` and the interpolation branch at
`5` on the axis `[4, 6, 8]`. -/
theorem find_bounds_spec_witness :
    (find_bounds (6 : ℚ) .temperature (6, 4, 0) [4, 6, 8] =
      .ok (.exact 6)) ∧
    (∃ b a, find_bounds (5 : ℚ) .logg (3000, 5, 0) [4, 6, 8] =
        .ok (.pair b a) ∧
      (b ∈ [(4 : ℚ), 6, 8] ∧ b ≤ 5 ∧ ∀ x ∈ [(4 : ℚ), 6, 8], x ≤ 5 → x ≤ b) ∧
      (a ∈ [(4 : ℚ), 6, 8] ∧ 5 < a ∧ ∀ x ∈ [(4 : ℚ), 6, 8], 5 < x → a ≤ x) ∧
      b ≤ 5 ∧ 5 ≤ a) :=
  ⟨(find_bounds_spec 6 .temperature (6, 4, 0) [4, 6, 8]).1 (by decide),
   (find_bounds_spec 5 .logg (3000, 5, 0) [4, 6, 8]).2 (by decide)
     ⟨4, by decide, by decide⟩ ⟨6, by decide, by decide⟩⟩

/-- C5: the weight calculator returns the single weight `1` for a
single-value bound; for a two-sided bound `(below, above)` with
`below < above` it returns `(above - value)/(above - below)` and
`(value - below)/(above - below)`, and those two weights sum to exactly
`1`. -/
theorem get_interpolation_weights_spec (value x b a : α) (h : b < a) :
    get_interpolation_weights value [x] = [1] ∧
    get_interpolation_weights value [b, a] =
      [(a - value) / (a - b), (value - b) / (a - b)] ∧
    (get_interpolation_weights value [b, a]).sum = 1 :=
  ⟨rfl, rfl, giw_pair_sum (ne_of_lt h)⟩

/-- Witness for C5 at `value = 5`, bounds `(4, 6)`. -/
theorem get_interpolation_weights_spec_witness :
    get_interpolation_weights (5 : ℚ) [7] = [1] ∧
    get_interpolation_weights (5 : ℚ) [4, 6] =
      [(6 - 5) / (6 - 4), (5 - 4) / (6 - 4)] ∧
    (get_interpolation_weights (5 : ℚ) [4, 6]).sum = 1 :=
  get_interpolation_weights_spec 5 7 4 6 (by decide)

/-- C6: a query value strictly below every axis value or strictly above
every axis value makes `find_bounds` raise the out-of-bounds error (never
a silent clamp), and the error carries the offending axis key, the
requested inputs, and that axis's minimum and maximum. -/
theorem find_bounds_out_of_range (value : α) (key : AxisKey)
    (inputs : α × α × α) (possible : List α) (hne : possible ≠ [])
    (h : (∀ x ∈ possible, value < x) ∨ (∀ x ∈ possible, x < value)) :
    ∃ lo hi, lmin possible = some lo ∧ lmax possible = some hi ∧
      find_bounds value key inputs possible =
        .error { key := key, inputs := inputs, lo := some lo,
                 hi := some hi } := by
  obtain ⟨lo, hlo⟩ := lmin_exists hne
  obtain ⟨hi, hhi⟩ := lmax_exists hne
  refine ⟨lo, hi, hlo, hhi, ?_⟩
  have hmem : value ∉ possible := by
    intro hv
    rcases h with h | h
    · exact lt_irrefl value (h value hv)
    · exact lt_irrefl value (h value hv)
  unfold find_bounds
  rw [if_neg hmem, hlo, hhi]
  rcases h with h | h
  · have hemp : (possible.filter fun x => decide (x ≤ value)) = [] := by
      rw [List.filter_eq_nil_iff]
      intro x hx
      simp only [decide_eq_true_eq]
      exact not_le.mpr (h x hx)
    rw [hemp]
    cases hA : lmin (possible.filter fun x => decide (value < x)) <;> rfl
  · have hemp : (possible.filter fun x => decide (value < x)) = [] := by
      rw [List.filter_eq_nil_iff]
      intro x hx
      simp only [decide_eq_true_eq]
      exact not_lt.mpr (le_of_lt (h x hx))
    rw [hemp]
    cases hB : lmax (possible.filter fun x => decide (x ≤ value)) <;> rfl

/-- Witness for C6: the query `9` above the axis `[4, 6, 8]`. -/
theorem find_bounds_out_of_range_witness :
    ∃ lo hi, lmin [(4 : ℚ), 6, 8] = some lo ∧
      lmax [(4 : ℚ), 6, 8] = some hi ∧
      find_bounds (9 : ℚ) .metallicity (3000, 5, 9) [4, 6, 8] =
        .error { key := .metallicity, inputs := (3000, 5, 9),
                 lo := some lo, hi := some hi } :=
  find_bounds_out_of_range 9 .metallicity (3000, 5, 9) [4, 6, 8]
    (by decide) (Or.inr (by decide))

/-- C7: for a requested resolution not exceeding some available one, the
selector returns the smallest available resolution `≥ R` (the first hit of
`np.flatnonzero(available >= R)` in the ascending list). -/
theorem find_smallest_R_spec {avail : List α} {R : α}
    (hsorted : avail.Sorted (· ≤ ·)) (hin : ∃ x ∈ avail, R ≤ x) :
    ∃ r, find_smallest_R avail R = .ok r ∧ r ∈ avail ∧ R ≤ r ∧
      ∀ x ∈ avail, R ≤ x → r ≤ x := by
  obtain ⟨x0, hx0, hRx0⟩ := hin
  have hxf : x0 ∈ avail.filter fun x => decide (R ≤ x) :=
    List.mem_filter.mpr ⟨hx0, decide_eq_true hRx0⟩
  cases hf : avail.filter fun x => decide (R ≤ x) with
  | nil => rw [hf] at hxf; simp at hxf
  | cons y ys =>
    have hymem : y ∈ avail.filter fun x => decide (R ≤ x) := by
      rw [hf]; exact List.mem_cons_self y ys
    rw [List.mem_filter] at hymem
    refine ⟨y, ?_, hymem.1, of_decide_eq_true hymem.2, ?_⟩
    · unfold find_smallest_R
      rw [hf]
      rfl
    · intro x hx hRle
      have hxfil : x ∈ avail.filter fun z => decide (R ≤ z) :=
        List.mem_filter.mpr ⟨hx, decide_eq_true hRle⟩
      rw [hf] at hxfil
      rcases List.mem_cons.mp hxfil with hxy | hxy
      · exact le_of_eq hxy.symm
      · have hps : (avail.filter fun z => decide (R ≤ z)).Pairwise (· ≤ ·) :=
          List.Pairwise.filter _ hsorted
        rw [hf, List.pairwise_cons] at hps
        exact hps.1 x hxy

/-- Witness for C7: `select(450)` on the available resolutions returns
`1000`, and `select(100000)` returns `100000`. -/
theorem find_smallest_R_spec_witness :
    (∃ r, find_smallest_R available_resolutions 450 = .ok r ∧
      r ∈ available_resolutions ∧ 450 ≤ r ∧
      ∀ x ∈ available_resolutions, 450 ≤ x → r ≤ x) ∧
    find_smallest_R available_resolutions 450 = .ok 1000 ∧
    find_smallest_R available_resolutions 100000 = .ok 100000 :=
  ⟨find_smallest_R_spec (by decide) ⟨1000, by decide, by decide⟩,
   by decide, by decide⟩

/-- C8 counter-evidence: a requested resolution above the maximum available
one makes the selector raise `IndexError` — `np.flatnonzero(...)[0]` fails
on the empty index array before the warning fallback, which is dead code —
instead of warning and returning the maximum. -/
theorem find_smallest_R_overflow :
    find_smallest_R available_resolutions 200000 =
      .error .indexOutOfRange := by decide

/-- C4: in the interpolation branch the temperature-axis weights are
computed from the log-transformed query and bound temperatures, while the
logg and metallicity weights use the untransformed native values: the
combined weights of `get_spectrum` are exactly the products below. -/
theorem temperature_interpolated_in_log_space
    (t g z tb ta gb ga zb za : ℝ) :
    spectrumWeights Real.log t g z (.pair tb ta) (.pair gb ga)
        (.pair zb za) =
      [((Real.log ta - Real.log t) / (Real.log ta - Real.log tb) *
          ((ga - g) / (ga - gb)) * ((za - z) / (za - zb)), (tb, gb, zb)),
       ((Real.log ta - Real.log t) / (Real.log ta - Real.log tb) *
          ((ga - g) / (ga - gb)) * ((z - zb) / (za - zb)), (tb, gb, za)),
       ((Real.log ta - Real.log t) / (Real.log ta - Real.log tb) *
          ((g - gb) / (ga - gb)) * ((za - z) / (za - zb)), (tb, ga, zb)),
       ((Real.log ta - Real.log t) / (Real.log ta - Real.log tb) *
          ((g - gb) / (ga - gb)) * ((z - zb) / (za - zb)), (tb, ga, za)),
       ((Real.log t - Real.log tb) / (Real.log ta - Real.log tb) *
          ((ga - g) / (ga - gb)) * ((za - z) / (za - zb)), (ta, gb, zb)),
       ((Real.log t - Real.log tb) / (Real.log ta - Real.log tb) *
          ((ga - g) / (ga - gb)) * ((z - zb) / (za - zb)), (ta, gb, za)),
       ((Real.log t - Real.log tb) / (Real.log ta - Real.log tb) *
          ((g - gb) / (ga - gb)) * ((za - z) / (za - zb)), (ta, ga, zb)),
       ((Real.log t - Real.log tb) / (Real.log ta - Real.log tb) *
          ((g - gb) / (ga - gb)) * ((z - zb) / (za - zb)), (ta, ga, za))] := by
  simp [spectrumWeights, Bound.values, get_interpolation_weights]

/-- C1: for a query triple that is exactly a key of the loaded grid's
`models` mapping (its components therefore lying on the axes, by the grid
invariant), `get_spectrum` returns that key's stored spectrum unchanged —
no interpolation arithmetic touches it — paired with the grid's wavelength
array. -/
theorem get_spectrum_exact_match (lg : α → α) (grid : Grid α) (t g z : α)
    (s : List α) (hw : grid.WellFormed)
    (hk : lookup grid.models (t, g, z) = some s) :
    get_spectrum lg grid t g z = .ok (grid.wavelength, s) := by
  obtain ⟨ht, hg, hz⟩ := hw ((t, g, z), s) (lookup_some_mem hk)
  have hT := find_bounds_exact .temperature (t, g, z) ht
  have hG := find_bounds_exact .logg (t, g, z) hg
  have hZ := find_bounds_exact .metallicity (t, g, z) hz
  simp only [get_spectrum, hT, hG, hZ]
  simp [Bound.size, Bound.first, hk]

/-- Witness for C1: a one-point grid queried exactly at its key. -/
theorem get_spectrum_exact_match_witness :
    get_spectrum id
        (⟨[1, 2, 3], [3000], [5], [0], [((3000, 5, 0), [7, 8, 9])]⟩ :
          Grid ℚ) 3000 5 0 =
      .ok ([1, 2, 3], [7, 8, 9]) :=
  get_spectrum_exact_match id _ 3000 5 0 [7, 8, 9]
    (by unfold Grid.WellFormed; decide) (by decide)

/-- C3: for an in-range query whose bounds were produced by `_find_bounds`
on a positive-temperature grid, with at least one axis not an exact match,
the sum of the up-to-8 combined weights formed in `get_spectrum` equals
`1` exactly in real arithmetic (hence within any floating-point
tolerance). -/
theorem weight_sum_invariant (grid : Grid ℝ) (t g z : ℝ)
    (bT bG bZ : Bound ℝ) (hpos : ∀ x ∈ grid.temperature, 0 < x)
    (hT : find_bounds t .temperature (t, g, z) grid.temperature = .ok bT)
    (hG : find_bounds g .logg (t, g, z) grid.logg = .ok bG)
    (hZ : find_bounds z .metallicity (t, g, z) grid.metallicity = .ok bZ)
    (hN : bT.size * bG.size * bZ.size ≠ 1) :
    ((spectrumWeights Real.log t g z bT bG bZ).map Prod.fst).sum = 1 :=
  sum_one_of_bounds grid t g z hpos hT hG hZ

/-- Witness for C3: temperature `3250` between `3000` and `3500`, exact
logg and metallicity. -/
theorem weight_sum_invariant_witness :
    ((spectrumWeights Real.log 3250 5 0 (.pair 3000 3500) (.exact 5)
        (.exact 0)).map Prod.fst).sum = 1 :=
  weight_sum_invariant ⟨[1], [3000, 3500], [5], [0], []⟩ 3250 5 0
    (.pair 3000 3500) (.exact 5) (.exact 0) (by norm_num)
    find_bounds_T_concrete find_bounds_g_concrete find_bounds_z_concrete
    (by decide)

/-- C9: an in-range interpolated query for which some constructed lattice
key is absent from the grid's `models` mapping makes `get_spectrum` fail
with the key-not-found error (the `KeyError` of the lookup loop), not
return a spectrum built from the remaining keys. -/
theorem missing_lattice_key_fails (lg : α → α) (grid : Grid α) (t g z : α)
    (bT bG bZ : Bound α)
    (hT : find_bounds t .temperature (t, g, z) grid.temperature = .ok bT)
    (hG : find_bounds g .logg (t, g, z) grid.logg = .ok bG)
    (hZ : find_bounds z .metallicity (t, g, z) grid.metallicity = .ok bZ)
    (hN : ¬ bT.size * bG.size * bZ.size = 1)
    (hmiss : ∃ c ∈ spectrumWeights lg t g z bT bG bZ,
        lookup grid.models c.2 = none) :
    ∃ k, lookup grid.models k = none ∧
      get_spectrum lg grid t g z = .error (.keyNotFound k) := by
  have hkeys : ∃ k ∈ (spectrumWeights lg t g z bT bG bZ).map Prod.snd,
      lookup grid.models k = none := by
    obtain ⟨c, hc, hn⟩ := hmiss
    exact ⟨c.2, List.mem_map_of_mem _ hc, hn⟩
  obtain ⟨k, hnone, herr⟩ := lookupAll_error_of_missing hkeys
  refine ⟨k, hnone, ?_⟩
  simp only [get_spectrum, hT, hG, hZ]
  rw [if_neg hN]
  simp only [herr]

/-- Witness for C9: an interpolated query on a grid missing the upper
temperature lattice point. -/
theorem missing_lattice_key_fails_witness :
    ∃ k,
      lookup ((⟨[1], [3000, 3500], [5], [0],
          [((3000, 5, 0), [7])]⟩ : Grid ℚ)).models k = none ∧
      get_spectrum id
          (⟨[1], [3000, 3500], [5], [0], [((3000, 5, 0), [7])]⟩ : Grid ℚ)
          3250 5 0 =
        .error (.keyNotFound k) :=
  missing_lattice_key_fails id _ 3250 5 0 (.pair 3000 3500) (.exact 5)
    (.exact 0) (by decide) (by decide) (by decide) (by decide) (by decide)

/-- C10: for a non-exact in-range query the weight-sum assertion of
`get_spectrum` accepts the computed sum (which is exactly `1` in real
arithmetic); in general the check passes precisely when the sum is within
the `np.isclose` tolerance of `1` or is at most `1`; and the weights
actually applied — each combined weight divided by the weight sum — sum to
`1`. -/
theorem weight_sum_check_spec (grid : Grid ℝ) (t g z : ℝ)
    (bT bG bZ : Bound ℝ) (hpos : ∀ x ∈ grid.temperature, 0 < x)
    (hT : find_bounds t .temperature (t, g, z) grid.temperature = .ok bT)
    (hG : find_bounds g .logg (t, g, z) grid.logg = .ok bG)
    (hZ : find_bounds z .metallicity (t, g, z) grid.metallicity = .ok bZ)
    (hN : bT.size * bG.size * bZ.size ≠ 1) :
    weightSumCheck
        ((spectrumWeights Real.log t g z bT bG bZ).map Prod.fst).sum =
      true ∧
    (∀ s : ℝ, weightSumCheck s = true ↔
      (|s - 1| ≤ 1 / 100000000 + 1 / 100000 * |1| ∨ s ≤ 1)) ∧
    (normalizedWeights
        ((spectrumWeights Real.log t g z bT bG bZ).map Prod.fst)).sum =
      1 := by
  have hsum := sum_one_of_bounds grid t g z hpos hT hG hZ
  refine ⟨?_, ?_, ?_⟩
  · rw [hsum]
    simp [weightSumCheck, np_isclose]
  · intro s
    simp [weightSumCheck, np_isclose, Bool.or_eq_true, decide_eq_true_eq]
  · rw [normalizedWeights, hsum]
    simpa using hsum

/-- Witness for C10: the same interpolated query as the C3 witness. -/
theorem weight_sum_check_spec_witness :
    weightSumCheck
        ((spectrumWeights Real.log 3250 5 0 (.pair 3000 3500) (.exact 5)
            (.exact 0)).map Prod.fst).sum =
      true ∧
    (∀ s : ℝ, weightSumCheck s = true ↔
      (|s - 1| ≤ 1 / 100000000 + 1 / 100000 * |1| ∨ s ≤ 1)) ∧
    (normalizedWeights
        ((spectrumWeights Real.log 3250 5 0 (.pair 3000 3500) (.exact 5)
            (.exact 0)).map Prod.fst)).sum =
      1 :=
  weight_sum_check_spec ⟨[1], [3000, 3500], [5], [0], []⟩ 3250 5 0
    (.pair 3000 3500) (.exact 5) (.exact 0) (by norm_num)
    find_bounds_T_concrete find_bounds_g_concrete find_bounds_z_concrete
    (by decide)

end Phoenix
